import Mathlib

/-!
Verification of the long-audio segmentation-and-stitching pipeline of
`whisper_transcriber.py` (class `WhisperTranscriber`).

Shallow embedding conventions:
* Timestamps are Python floats in the source; they are modelled as `ℚ`.
* Audio durations/positions handled by the splitter are integer milliseconds
  in the source (`pydub` lengths); they are modelled as `ℕ`.
* A per-chunk recognition outcome is `Option Transcript`: `none` models the
  exception path of `transcribe_audio` inside the per-chunk `try` block.
* File I/O (writing chunk mp3 files, writing the markdown document) does not
  influence the transcript values computed; the document's byte content is
  modelled as the `String` the code writes.
-/

namespace PTT

/-- A recognized utterance span: the dicts in `result["segments"]`, with the
fields read by the pipeline (`start`, `end`, `text`). -/
structure Segment where
  start : ℚ
  «end» : ℚ
  text : String
  deriving DecidableEq, Repr

/-- A recognition result: the dict `{"text": ..., "segments": ..., "language": ...}`
returned by `transcribe_audio` / built by `transcribe_long_audio`. -/
structure Transcript where
  text : String
  segments : List Segment
  language : String
  deriving DecidableEq, Repr

/-! ## Timeline merger (`transcribe_long_audio`, lines 238-268) -/

/-- `segment["start"] += total_duration; segment["end"] += total_duration`
(lines 252-254). -/
def offsetSegment (off : ℚ) (s : Segment) : Segment :=
  { s with start := s.start + off, «end» := s.«end» + off }

/-- `result["segments"][-1]["end"] if result["segments"] else 0`:
the last segment's `end`, or `0` for an empty segment list. -/
def lastEnd (segs : List Segment) : ℚ :=
  match segs.getLast? with
  | some s => s.«end»
  | none => 0

/-- One iteration of the chunk loop (lines 241-261), acting on the pair
`(all_segments, total_duration)`.  A `none` result models the `except` branch:
the accumulator is left untouched and the loop continues.  On success the code
first mutates every segment of the chunk in place, adding `total_duration` to
`start` and `end`, extends `all_segments`, and only then reads
`result["segments"][-1]["end"]` — which at that point is the *already offset*
end — to advance `total_duration`. -/
def mergeStep (acc : List Segment × ℚ) (r : Option Transcript) : List Segment × ℚ :=
  match r with
  | none => acc
  | some t =>
    let adjusted := t.segments.map (offsetSegment acc.2)
    (acc.1 ++ adjusted, acc.2 + lastEnd adjusted)

/-- The merged result built at lines 263-268:
`{"text": " ".join(...), "segments": all_segments, "language": language}`. -/
def mergeChunks (rs : List (Option Transcript)) (language : String) : Transcript :=
  let acc := rs.foldl mergeStep ([], 0)
  { text := String.intercalate " " (acc.1.map Segment.text)
    segments := acc.1
    language := language }

/-- The merger as the spec's §4.3 words describe it, for comparison with
`mergeStep`: "advance the running offset by the *last* segment's `end` value of
that chunk (0 if the chunk produced no segments)", the chunk's own
(chunk-relative) last `end`, so that the offset accumulates the per-chunk
elapsed content time. -/
def mergeStepSpec (acc : List Segment × ℚ) (r : Option Transcript) : List Segment × ℚ :=
  match r with
  | none => acc
  | some t =>
    (acc.1 ++ t.segments.map (offsetSegment acc.2), acc.2 + lastEnd t.segments)

/-- Merged result under the spec-described offset rule. -/
def mergeChunksSpec (rs : List (Option Transcript)) (language : String) : Transcript :=
  let acc := rs.foldl mergeStepSpec ([], 0)
  { text := String.intercalate " " (acc.1.map Segment.text)
    segments := acc.1
    language := language }

/-! ## Segmentation engine (`split_audio`, lines 134-197) -/

/-- A physical piece of the original audio, as `(start position, length)` in
milliseconds.  `split_on_silence`'s output pieces are sub-slices of the
original clip; the code keeps only the slices, so the start position is model
bookkeeping used to state claims about true positions on the original
timeline. -/
abbrev Piece := ℕ × ℕ

/-- The fixed-length fallback of line 186:
`chunks = [audio[i:i+chunk_length_ms] for i in range(0, total_length_ms, chunk_length_ms)]`.
`range(0, total, L)` enumerates `i * L` for `i < (total + L - 1) / L` (natural
ceiling division), and the slice `audio[p : p + L]` has length
`min L (total - p)`. -/
def fixedChunks (total L : ℕ) : List Piece :=
  (List.range ((total + L - 1) / L)).map fun i => (i * L, min L (total - i * L))

/-- Result of `split_audio`: either the unsplit input file (line 172 returns
`[audio_path]` itself) or a list of exported pieces. -/
inductive SplitResult where
  | whole
  | chunks (ps : List Piece)
  deriving DecidableEq, Repr

/-- `split_audio` (lines 154-197).  `silencePieces` models the value of the
external `pydub` call `split_on_silence(audio, ...)` at line 176: a list of
sub-slices of the original clip.  The fallback condition at line 184 is
`if not chunks or max(len(chunk) for chunk in chunks) > chunk_length_ms`; for a
nonempty list `max(...) > L` holds iff some piece's length exceeds `L`, and
Python's short-circuit `or` guards the empty case. -/
def split_audio (total L : ℕ) (silencePieces : List Piece) : SplitResult :=
  if total ≤ L then .whole
  else if silencePieces.isEmpty || silencePieces.any fun p => decide (L < p.2) then
    .chunks (fixedChunks total L)
  else .chunks silencePieces

/-- The chunk sequence handed to the transcription loop; the passthrough case
is the single original clip, whole and at position 0. -/
def chunkList (r : SplitResult) (total : ℕ) : List Piece :=
  match r with
  | .whole => [(0, total)]
  | .chunks ps => ps

/-- `transcribe_long_audio`'s dispatch (lines 234-268): when `split_audio`
returned the original file (`len(chunk_files) == 1 and chunk_files[0] == audio_path`
at line 234, true exactly for the passthrough case, since exported pieces live
in `output_dir` under ordinal-suffixed names), the single clip's transcript is
returned unchanged and no merge happens; otherwise the per-chunk outcomes are
merged. -/
def transcribe_long_audio (split : SplitResult) (single : Transcript)
    (rs : List (Option Transcript)) (lang : String) : Transcript :=
  match split with
  | .whole => single
  | .chunks _ => mergeChunks rs lang

/-! ## Document renderer (`save_transcript_to_markdown`, lines 277-350) -/

/-- Python `int()` on floats: truncation toward zero, on the `ℚ` model. -/
def pyInt (q : ℚ) : ℤ :=
  if q < 0 then ⌈q⌉ else ⌊q⌋

/-- Python float `%`: `a % b = a - b * ⌊a / b⌋` (result carries the divisor's
sign; every divisor used here is positive). -/
def pyMod (a b : ℚ) : ℚ :=
  a - b * ((⌊a / b⌋ : ℤ) : ℚ)

/-- Python `f"{n:02d}"`: decimal rendering zero-padded to width 2. -/
def pad2 (n : ℤ) : String :=
  if 0 ≤ n ∧ n < 10 then "0" ++ toString n else toString n

/-- The `HH:MM:SS` form of lines 331-339:
`f"{int(t/3600):02d}:{int((t%3600)/60):02d}:{int(t%60):02d}"`. -/
def fmtHMS (t : ℚ) : String :=
  pad2 (pyInt (t / 3600)) ++ ":" ++ pad2 (pyInt (pyMod t 3600 / 60)) ++ ":"
    ++ pad2 (pyInt (pyMod t 60))

/-- The `MM:SS` form of lines 341-342: `f"{int(t/60):02d}:{int(t%60):02d}"`. -/
def fmtMS (t : ℚ) : String :=
  pad2 (pyInt (t / 60)) ++ ":" ++ pad2 (pyInt (pyMod t 60))

/-- Timestamp-pair formatting for one segment line (lines 319-342): each
endpoint is clamped to `max_time = 10 * 3600` seconds (lines 326-328), then
both are rendered `HH:MM:SS` when `start_time >= 3600 or end_time >= 3600`
(on the clamped values, line 330), else both `MM:SS`. -/
def fmtPair (s e : ℚ) : String × String :=
  let cs := min s 36000
  let ce := min e 36000
  if 3600 ≤ cs ∨ 3600 ≤ ce then (fmtHMS cs, fmtHMS ce) else (fmtMS cs, fmtMS ce)

/-- One segment entry, line 344: `f"**[{start}-{end}]** {text}\n\n"` with the
segment text stripped (line 322). -/
def segLine (s : Segment) : String :=
  "**[" ++ (fmtPair s.start s.«end»).1 ++ "-" ++ (fmtPair s.start s.«end»).2
    ++ "]** " ++ s.text.trim ++ "\n\n"

/-- Metadata duration rendering, lines 296-306: the value is
`min(segments[-1]["end"], 36000)`; `H小时M分钟S秒` when the truncated hour
count is positive, else `M分钟S秒` (no zero padding). -/
def durFmt (d : ℚ) : String :=
  let hours := pyInt (d / 3600)
  let minutes := pyInt (pyMod d 3600 / 60)
  let seconds := pyInt (pyMod d 60)
  if 0 < hours then
    toString hours ++ "小时" ++ toString minutes ++ "分钟" ++ toString seconds ++ "秒"
  else
    toString minutes ++ "分钟" ++ toString seconds ++ "秒"

/-- The metadata block, lines 291-309: the language line always (the model's
transcripts always carry a language, so `transcript.get('language', '未知')`
is the language itself), then the duration line only when segments exist.
The renderer receives no audio duration; the displayed duration comes from the
last segment's clamped end. -/
def metadataBlock (t : Transcript) : String :=
  "- 语言: " ++ t.language ++ "\n"
    ++ (match t.segments.getLast? with
        | some s => "- 时长: " ++ durFmt (min s.«end» 36000) ++ "\n"
        | none => "")

/-- The full markdown document written by `save_transcript_to_markdown`
(lines 286-344), as the byte string written to the output file. -/
def renderTranscript (t : Transcript) : String :=
  "# 音频转录\n\n" ++ "## 音频信息\n\n" ++ metadataBlock t ++ "\n"
    ++ "## 完整转录文本\n\n" ++ t.text.trim ++ "\n\n"
    ++ (match t.segments with
        | [] => ""
        | _ => "## 带时间戳的分段文本\n\n" ++ String.join (t.segments.map segLine))

/-- `save_transcript_to_markdown` as a state-passing run: the document written
and the transcript value as left by the call.  The Python body only reads
`transcript` (every assignment targets a local variable or the file handle),
so the post-call transcript is the argument itself. -/
def save_transcript_to_markdown (t : Transcript) : String × Transcript :=
  (renderTranscript t, t)

/-! ## Script normalization (`transcribe_audio`, lines 117-125) -/

/-- Application of the converter to the full text and every segment's text
(lines 119-123: `result["text"] = self.convert_to_simplified(result["text"])`
and the per-segment loop). -/
def applyConv (conv : String → String) (r : Transcript) : Transcript :=
  { r with
    text := conv r.text
    segments := r.segments.map fun s => { s with text := conv s.text } }

/-- The post-processing of `transcribe_audio` (line 117):
`if self.to_simplified and language == "zh":` apply the converter, else return
the recognizer result untouched.  `conv` models the external
`opencc.OpenCC('t2s').convert`. -/
def normalizeResult (to_simplified : Bool) (conv : String → String)
    (language : String) (r : Transcript) : Transcript :=
  if to_simplified && language == "zh" then applyConv conv r else r

/-! ## Well-formedness of recognizer output -/

/-- Well-formedness of a per-chunk recognizer transcript: every segment has a
nonnegative start and `start ≤ end`, and both the start sequence and the end
sequence are non-decreasing.  (The spec promises `start ≤ end` and increasing
starts; nonnegative values and non-decreasing ends are the extra assumptions
claim C5 needs, see `merged_ends_counterexample`.) -/
def wellFormed (t : Transcript) : Prop :=
  (∀ s ∈ t.segments, 0 ≤ s.start ∧ s.start ≤ s.«end»)
  ∧ List.Pairwise (· ≤ ·) (t.segments.map Segment.start)
  ∧ List.Pairwise (· ≤ ·) (t.segments.map Segment.«end»)

instance (t : Transcript) : Decidable (wellFormed t) := by
  unfold wellFormed
  infer_instance

/-- Invariant of the merge fold: the running offset is nonnegative, every
accumulated segment is well-placed below the running offset, and the
accumulated start and end sequences are non-decreasing. -/
def mergeInv (acc : List Segment × ℚ) : Prop :=
  0 ≤ acc.2
  ∧ (∀ s ∈ acc.1, 0 ≤ s.start ∧ s.start ≤ s.«end» ∧ s.«end» ≤ acc.2)
  ∧ List.Pairwise (· ≤ ·) (acc.1.map Segment.start)
  ∧ List.Pairwise (· ≤ ·) (acc.1.map Segment.«end»)

/-! ## Shared helper lemmas -/

/-- In a non-decreasing list every element is at most the last one. -/
theorem le_getLast_of_pairwise :
    ∀ {l : List ℚ} {y : ℚ}, l.Pairwise (· ≤ ·) → l.getLast? = some y →
      ∀ x ∈ l, x ≤ y := by
  intro l
  induction l with
  | nil =>
    intro y _ hy
    simp at hy
  | cons a l ih =>
    intro y hp hy x hx
    cases l with
    | nil =>
      simp only [List.getLast?_singleton, Option.some.injEq] at hy
      simp only [List.mem_singleton] at hx
      exact hx ▸ hy ▸ le_refl a
    | cons b l' =>
      rw [List.getLast?_cons_cons] at hy
      rcases List.mem_cons.mp hx with rfl | hx'
      · exact (List.pairwise_cons.mp hp).1 y (List.mem_of_getLast?_eq_some hy)
      · exact ih (List.pairwise_cons.mp hp).2 hy x hx'

/-- Offsetting by `0` leaves a segment unchanged. -/
theorem offsetSegment_zero : offsetSegment 0 = id := by
  funext s
  simp [offsetSegment]

/-- Unfolding `mergeStep` at a failed chunk. -/
theorem mergeStep_none (acc : List Segment × ℚ) : mergeStep acc none = acc := rfl

/-- Unfolding `mergeStep` at a successful chunk. -/
theorem mergeStep_some (acc : List Segment × ℚ) (t : Transcript) :
    mergeStep acc (some t) =
      (acc.1 ++ t.segments.map (offsetSegment acc.2),
        acc.2 + lastEnd (t.segments.map (offsetSegment acc.2))) := rfl

/-- The merged transcript's segment list is the first component of the fold. -/
theorem mergeChunks_segments (rs : List (Option Transcript)) (lang : String) :
    (mergeChunks rs lang).segments = (rs.foldl mergeStep ([], 0)).1 := rfl

/-- A failed chunk (`none`) leaves the merge accumulator unchanged, so folding
over the raw outcome list equals folding over the successful outcomes only. -/
theorem foldl_mergeStep_reduceOption (rs : List (Option Transcript))
    (acc : List Segment × ℚ) :
    rs.foldl mergeStep acc = (rs.reduceOption.map some).foldl mergeStep acc := by
  induction rs generalizing acc with
  | nil => rfl
  | cons r rs ih =>
    cases r with
    | none =>
      rw [List.reduceOption_cons_of_none]
      simpa [mergeStep] using ih acc
    | some t =>
      rw [List.reduceOption_cons_of_some]
      simpa using ih (mergeStep acc (some t))

/-- For a clip longer than the limit, a degenerate silence result (empty, or
containing an over-long piece) makes `split_audio` fall back to fixed-length
slicing. -/
theorem split_audio_fallback (total L : ℕ) (ps : List Piece)
    (hnle : ¬ total ≤ L) (hcond : ps = [] ∨ ∃ p ∈ ps, L < p.2) :
    split_audio total L ps = .chunks (fixedChunks total L) := by
  rcases hcond with h | ⟨p, hp, hpl⟩
  · simp [split_audio, hnle, h]
  · have hany : (ps.any fun p => decide (L < p.2)) = true :=
      List.any_eq_true.mpr ⟨p, hp, by simpa using hpl⟩
    simp [split_audio, hnle, hany]

/-- For a clip longer than the limit, a nonempty silence result all of whose
pieces respect the limit is retained unchanged by `split_audio`. -/
theorem split_audio_keeps_silence (total L : ℕ) (ps : List Piece)
    (hnle : ¬ total ≤ L) (hne : ps ≠ []) (hall : ∀ p ∈ ps, p.2 ≤ L) :
    split_audio total L ps = .chunks ps := by
  have hemp : ps.isEmpty = false := by
    simpa [List.isEmpty_iff] using hne
  have hany : (ps.any fun p => decide (L < p.2)) = false := by
    simp only [List.any_eq_false, decide_eq_true_eq]
    exact fun p hp => Nat.not_lt.mpr (hall p hp)
  simp [split_audio, hnle, hemp, hany]

/-- A successful, well-formed chunk preserves the merge invariant. -/
theorem mergeStep_preserves_inv (acc : List Segment × ℚ) (t : Transcript)
    (hwf : wellFormed t) (hinv : mergeInv acc) :
    mergeInv (mergeStep acc (some t)) := by
  obtain ⟨h0, hbound, hstart, hend⟩ := hinv
  obtain ⟨hwfs, hwstart, hwend⟩ := hwf
  rw [mergeStep_some]
  rcases hgl : t.segments.getLast? with _ | sL
  · have hnil : t.segments = [] := List.getLast?_eq_none_iff.mp hgl
    refine ⟨?_, ?_, ?_, ?_⟩ <;> simp [hnil, lastEnd]
    · exact h0
    · exact fun s hs => hbound s hs
    · exact hstart
    · exact hend
  · have hsLmem : sL ∈ t.segments := List.mem_of_getLast?_eq_some hgl
    have hle : lastEnd (t.segments.map (offsetSegment acc.2)) = sL.«end» + acc.2 := by
      simp [lastEnd, List.getLast?_map, hgl, offsetSegment]
    have h0sL : 0 ≤ sL.«end» :=
      le_trans (hwfs sL hsLmem).1 (hwfs sL hsLmem).2
    have hemax : ∀ s ∈ t.segments, s.«end» ≤ sL.«end» := by
      intro s hs
      exact le_getLast_of_pairwise hwend
        (by rw [List.getLast?_map, hgl]; rfl)
        s.«end» (List.mem_map_of_mem _ hs)
    rw [hle]
    have hoo : acc.2 ≤ acc.2 + (sL.«end» + acc.2) := by linarith
    refine ⟨show (0 : ℚ) ≤ acc.2 + (sL.«end» + acc.2) by linarith, ?_, ?_, ?_⟩
    · intro s hs
      rcases List.mem_append.mp hs with hs' | hs'
      · obtain ⟨ha, hb, hc⟩ := hbound s hs'
        exact ⟨ha, hb, le_trans hc hoo⟩
      · obtain ⟨s0, hs0, rfl⟩ := List.mem_map.mp hs'
        obtain ⟨ha, hb⟩ := hwfs s0 hs0
        refine ⟨by simp [offsetSegment]; linarith, ?_, ?_⟩
        · simp [offsetSegment]
          linarith
        · simp [offsetSegment]
          have := hemax s0 hs0
          linarith
    · rw [List.map_append]
      rw [List.pairwise_append]
      refine ⟨hstart, ?_, ?_⟩
      · rw [List.map_map]
        have hco : (Segment.start ∘ offsetSegment acc.2) = fun s => s.start + acc.2 := by
          funext s
          simp [offsetSegment]
        rw [hco]
        have hm := List.Pairwise.map (fun x => x + acc.2)
          (fun a b (h : a ≤ b) => by linarith : ∀ a b : ℚ, a ≤ b → a + acc.2 ≤ b + acc.2)
          hwstart
        rw [List.map_map] at hm
        convert hm using 2
      · intro x hx y hy
        obtain ⟨sx, hsx, rfl⟩ := List.mem_map.mp hx
        rw [List.map_map] at hy
        obtain ⟨sy, hsy, rfl⟩ := List.mem_map.mp hy
        obtain ⟨_, hb, hc⟩ := hbound sx hsx
        have hy0 := (hwfs sy hsy).1
        simp [offsetSegment]
        linarith
    · rw [List.map_append]
      rw [List.pairwise_append]
      refine ⟨hend, ?_, ?_⟩
      · rw [List.map_map]
        have hco : (Segment.«end» ∘ offsetSegment acc.2) = fun s => s.«end» + acc.2 := by
          funext s
          simp [offsetSegment]
        rw [hco]
        have hm := List.Pairwise.map (fun x => x + acc.2)
          (fun a b (h : a ≤ b) => by linarith : ∀ a b : ℚ, a ≤ b → a + acc.2 ≤ b + acc.2)
          hwend
        rw [List.map_map] at hm
        convert hm using 2
      · intro x hx y hy
        obtain ⟨sx, hsx, rfl⟩ := List.mem_map.mp hx
        rw [List.map_map] at hy
        obtain ⟨sy, hsy, rfl⟩ := List.mem_map.mp hy
        obtain ⟨ha, hb, hc⟩ := hbound sx hsx
        have hy0 : 0 ≤ sy.«end» := le_trans (hwfs sy hsy).1 (hwfs sy hsy).2
        simp [offsetSegment]
        linarith

/-- The merge invariant holds after folding any list of successful,
well-formed chunks. -/
theorem foldl_preserves_inv :
    ∀ (ts : List Transcript) (acc : List Segment × ℚ),
      (∀ t ∈ ts, wellFormed t) → mergeInv acc →
      mergeInv ((ts.map some).foldl mergeStep acc) := by
  intro ts
  induction ts with
  | nil =>
    intro acc _ h
    simpa using h
  | cons t ts ih =>
    intro acc hts hinv
    simp only [List.map_cons, List.foldl_cons]
    exact ih _ (fun u hu => hts u (List.mem_cons_of_mem _ hu))
      (mergeStep_preserves_inv acc t (hts t (List.mem_cons_self t ts)) hinv)

/-! ## Claim theorems -/

/-- **C1** (code_bug evidence). The merger is claimed to advance its running
offset by each chunk's last segment `end`.  The code instead advances it by the
segment's *already rewritten* end (`total_duration += result["segments"][-1]["end"]`
is executed after the in-place `+= total_duration` loop), so the running offset
doubles at every nonempty chunk.  Failing input: three chunks whose transcripts
each hold the single segment `{start: 0, end: 10}`.  The code places chunk 3 at
offset 30 (segment `(30, 40)`), whereas the spec-described rule
(`mergeChunksSpec`) places it at offset 20 (segment `(20, 30)`). -/
theorem mergeChunks_offset_doubling_bug :
    let t : Transcript := ⟨"a", [⟨0, 10, "a"⟩], "zh"⟩
    (mergeChunks [some t, some t, some t] "zh").segments.map
        (fun s => (s.start, s.«end»)) = [(0, 10), (10, 20), (30, 40)]
    ∧ (mergeChunksSpec [some t, some t, some t] "zh").segments.map
        (fun s => (s.start, s.«end»)) = [(0, 10), (10, 20), (20, 30)]
    ∧ (mergeChunks [some t, some t, some t] "zh").segments
        ≠ (mergeChunksSpec [some t, some t, some t] "zh").segments := by
  refine ⟨?_, ?_, ?_⟩ <;>
    simp [mergeChunks, mergeChunksSpec, mergeStep, mergeStepSpec,
      offsetSegment, lastEnd] <;> norm_num

/-- **C2**: every failing chunk is skipped and contributes nothing (merging the
raw outcome list equals merging the successful outcomes only, in order); a run
where every chunk fails yields the empty merged transcript rather than an
error; and for a 3-chunk run where exactly chunk 2 fails, the merged segment
list is chunk 1's segments followed by chunk 3's segments offset by chunk 1's
last segment end. -/
theorem mergeChunks_skips_failed_chunks :
    (∀ (rs : List (Option Transcript)) (lang : String),
      mergeChunks rs lang = mergeChunks (rs.reduceOption.map some) lang)
    ∧ (∀ (rs : List (Option Transcript)) (lang : String),
      (∀ r ∈ rs, r = none) →
      mergeChunks rs lang = ⟨"", [], lang⟩)
    ∧ (∀ (t1 t3 : Transcript) (lang : String),
      (mergeChunks [some t1, none, some t3] lang).segments
        = t1.segments ++ t3.segments.map (offsetSegment (lastEnd t1.segments))) := by
  refine ⟨?_, ?_, ?_⟩
  · intro rs lang
    unfold mergeChunks
    rw [foldl_mergeStep_reduceOption]
  · intro rs lang h
    have hred : rs.reduceOption = [] := by
      induction rs with
      | nil => rfl
      | cons r rs ih =>
        have hr : r = none := h r (List.mem_cons_self r rs)
        subst hr
        rw [List.reduceOption_cons_of_none]
        exact ih fun x hx => h x (List.mem_cons_of_mem _ hx)
    unfold mergeChunks
    rw [foldl_mergeStep_reduceOption, hred]
    rfl
  · intro t1 t3 lang
    have hmap : t1.segments.map (offsetSegment 0) = t1.segments := by
      rw [offsetSegment_zero, List.map_id]
    rw [mergeChunks_segments]
    simp only [List.foldl_cons, List.foldl_nil, mergeStep_none, mergeStep_some]
    simp [hmap, lastEnd]

/-- Witness for `mergeChunks_skips_failed_chunks`: an all-failed 2-chunk run
yields the empty transcript, and the concrete 3-chunk partial-failure run
places chunk 3 after chunk 1. -/
theorem mergeChunks_skips_failed_chunks_witness :
    mergeChunks [none, none] "zh" = ⟨"", [], "zh"⟩
    ∧ (mergeChunks [some ⟨"a", [⟨0, 2, "a"⟩], "zh"⟩, none,
          some ⟨"b", [⟨1, 3, "b"⟩], "zh"⟩] "zh").segments
        = [⟨0, 2, "a"⟩] ++ [(⟨1, 3, "b"⟩ : Segment)].map (offsetSegment (lastEnd [⟨0, 2, "a"⟩])) :=
  ⟨mergeChunks_skips_failed_chunks.2.1 [none, none] "zh" (by simp),
    mergeChunks_skips_failed_chunks.2.2 ⟨"a", [⟨0, 2, "a"⟩], "zh"⟩ ⟨"b", [⟨1, 3, "b"⟩], "zh"⟩ "zh"⟩

/-- **C4**: a clip with duration ≤ L (including exactly L) passes through as
one chunk — the whole clip at offset 0, with no split artifact — and
`transcribe_long_audio` then skips the merge and returns the single chunk's
transcript unchanged. -/
theorem split_passthrough_short_clip :
    ∀ (total L : ℕ) (ps : List Piece) (single : Transcript)
      (rs : List (Option Transcript)) (lang : String),
      total ≤ L →
      split_audio total L ps = .whole
      ∧ chunkList (split_audio total L ps) total = [(0, total)]
      ∧ transcribe_long_audio (split_audio total L ps) single rs lang = single := by
  intro total L ps single rs lang h
  have hs : split_audio total L ps = .whole := by
    simp [split_audio, h]
  refine ⟨hs, ?_, ?_⟩ <;> rw [hs] <;> rfl

/-- Witness for `split_passthrough_short_clip` at a clip whose duration is
exactly the limit. -/
theorem split_passthrough_short_clip_witness :
    split_audio 10 10 [] = .whole
    ∧ chunkList (split_audio 10 10 []) 10 = [(0, 10)]
    ∧ transcribe_long_audio (split_audio 10 10 []) ⟨"t", [], "zh"⟩ [] "zh"
        = ⟨"t", [], "zh"⟩ :=
  split_passthrough_short_clip 10 10 [] ⟨"t", [], "zh"⟩ [] "zh" (by decide)

/-- **C3**: for a clip longer than L, the silence-aware result is discarded
exactly when it is empty or some piece exceeds L, in which case the clip is
sliced into `⌈total / L⌉ = (total + L - 1) / L` consecutive windows, the
`i`-th (0-based) starting at `i * L`, every window but the last of length
exactly L; and the single 12-minute silence piece against L = 10 minutes is
replaced by fixed windows of 10 and 2 minutes. -/
theorem split_fallback_fixed_length :
    ∀ (total L : ℕ) (ps : List Piece), 0 < L → L < total →
      ((ps = [] ∨ ∃ p ∈ ps, L < p.2) →
        split_audio total L ps = .chunks (fixedChunks total L))
      ∧ (¬(ps = [] ∨ ∃ p ∈ ps, L < p.2) →
        split_audio total L ps = .chunks ps)
      ∧ (fixedChunks total L).length = (total + L - 1) / L
      ∧ (∀ i (h : i < (fixedChunks total L).length),
          ((fixedChunks total L).get ⟨i, h⟩).1 = i * L)
      ∧ (∀ i (h : i + 1 < (fixedChunks total L).length),
          ((fixedChunks total L).get ⟨i, Nat.lt_of_succ_lt h⟩).2 = L)
      ∧ split_audio 720000 600000 [(0, 720000)]
          = .chunks [(0, 600000), (600000, 120000)] := by
  intro total L ps hL hLt
  have hnle : ¬ total ≤ L := Nat.not_le.mpr hLt
  refine ⟨?_, ?_, ?_, ?_, ?_, ?_⟩
  · exact split_audio_fallback total L ps hnle
  · intro h
    push_neg at h
    exact split_audio_keeps_silence total L ps hnle h.1 h.2
  · simp [fixedChunks]
  · intro i h
    simp [fixedChunks]
  · intro i h
    have hlen : i + 1 < (total + L - 1) / L := by
      simpa [fixedChunks] using h
    have hmul : (i + 2) * L ≤ total + L - 1 :=
      (Nat.le_div_iff_mul_le hL).mp hlen
    have hmul2 : i * L + 2 * L ≤ total + L - 1 := by
      have : (i + 2) * L = i * L + 2 * L := by ring
      omega
    have hle : L ≤ total - i * L := by omega
    simp [fixedChunks, Nat.min_eq_left hle]
  · decide

/-- Witness for `split_fallback_fixed_length`: the 12-minute clip whose
silence-aware result is a single 12-minute piece, against a 10-minute limit. -/
theorem split_fallback_fixed_length_witness :
    split_audio 720000 600000 [(0, 720000)]
      = .chunks (fixedChunks 720000 600000)
    ∧ (fixedChunks 720000 600000).length = (720000 + 600000 - 1) / 600000 :=
  ⟨(split_fallback_fixed_length 720000 600000 [(0, 720000)] (by decide) (by decide)).1
      (Or.inr ⟨(0, 720000), by simp, by decide⟩),
    (split_fallback_fixed_length 720000 600000 [(0, 720000)] (by decide) (by decide)).2.2.1⟩

/-- **C7** counterexample.  A 12-unit clip with a 10-unit limit whose
silence-aware split detects speech at positions 0-5 and 8-12 yields the
retained pieces `[(0, 5), (8, 4)]` (so the silence-aware path is taken, the
second piece's true start being 8); with plausible per-chunk transcripts the
merger places chunk 2's segments at offset 9/2 — chunk 1's last segment end —
not at the true start 8, and the concatenated piece durations 5 + 4 = 9 do not
reconstruct the original length 12. -/
theorem silence_offset_counterexample :
    split_audio 12 10 [(0, 5), (8, 4)] = .chunks [(0, 5), (8, 4)]
    ∧ (mergeChunks [some ⟨"x", [⟨0, 9/2, "x"⟩], "zh"⟩,
          some ⟨"y", [⟨0, 3, "y"⟩], "zh"⟩] "zh").segments.map Segment.start
        = [0, 9/2]
    ∧ ((9 : ℚ)/2 ≠ 8)
    ∧ (5 + 4 ≠ (12 : ℕ)) := by
  refine ⟨by decide, ?_, by norm_num, by decide⟩
  simp [mergeChunks, mergeStep, offsetSegment, lastEnd]

/-- **C7** (amended): for a clip longer than L split by the silence-aware path
(a nonempty silence result whose pieces all respect L), the retained chunk
sequence is exactly the detected pieces, in order; the code records no source
offset for them, and the multi-chunk transcription result is a function of the
per-chunk recognition outcomes alone — identical for any other piece list —
so segment placement is the merger's running offset, not the piece's true
start position, and piece durations need not reconstruct the clip length. -/
theorem silence_path_retains_pieces :
    ∀ (total L : ℕ) (ps : List Piece), 0 < L → L < total →
      ps ≠ [] → (∀ p ∈ ps, p.2 ≤ L) →
      split_audio total L ps = .chunks ps
      ∧ (∀ (single : Transcript) (rs : List (Option Transcript)) (lang : String)
          (qs : List Piece),
          transcribe_long_audio (.chunks ps) single rs lang
            = transcribe_long_audio (.chunks qs) single rs lang) := by
  intro total L ps hL hLt hne hall
  refine ⟨split_audio_keeps_silence total L ps (Nat.not_le.mpr hLt) hne hall, ?_⟩
  intro single rs lang qs
  rfl

/-- Witness for `silence_path_retains_pieces` at the concrete silence split of
`silence_offset_counterexample`'s clip. -/
theorem silence_path_retains_pieces_witness :
    split_audio 12 10 [(0, 5), (8, 4)] = .chunks [(0, 5), (8, 4)]
    ∧ transcribe_long_audio (.chunks [(0, 5), (8, 4)]) ⟨"t", [], "zh"⟩ [] "zh"
        = transcribe_long_audio (.chunks [(0, 9), (9, 3)]) ⟨"t", [], "zh"⟩ [] "zh" :=
  ⟨(silence_path_retains_pieces 12 10 [(0, 5), (8, 4)] (by decide) (by decide)
      (by decide) (by decide)).1,
    (silence_path_retains_pieces 12 10 [(0, 5), (8, 4)] (by decide) (by decide)
      (by decide) (by decide)).2 ⟨"t", [], "zh"⟩ [] "zh" [(0, 9), (9, 3)]⟩

/-- **C6**: each segment endpoint is independently clamped to 36000 s before
formatting; the pair is rendered `HH:MM:SS` when either clamped endpoint is at
least 3600 s and `MM:SS` otherwise, both endpoints always in the same format;
an end of 40000 renders as `10:00:00`, and `{start: 3599, end: 3601}` renders
as `00:59:59`-`01:00:01`. -/
theorem segment_timestamp_format :
    (∀ s e : ℚ, fmtPair s e = fmtPair (min s 36000) (min e 36000))
    ∧ (∀ s e : ℚ, 3600 ≤ min s 36000 ∨ 3600 ≤ min e 36000 →
        fmtPair s e = (fmtHMS (min s 36000), fmtHMS (min e 36000)))
    ∧ (∀ s e : ℚ, min s 36000 < 3600 → min e 36000 < 3600 →
        fmtPair s e = (fmtMS (min s 36000), fmtMS (min e 36000)))
    ∧ (fmtPair 0 40000).2 = "10:00:00"
    ∧ fmtPair 3599 3601 = ("00:59:59", "01:00:01") := by
  refine ⟨?_, ?_, ?_, ?_, ?_⟩
  · intro s e
    simp only [fmtPair, min_assoc, min_self]
  · intro s e h
    simp only [fmtPair, if_pos h]
  · intro s e hs he
    have h : ¬(3600 ≤ min s 36000 ∨ 3600 ≤ min e 36000) := by
      push_neg
      exact ⟨hs, he⟩
    simp only [fmtPair, if_neg h]
  · have h40 : min (40000 : ℚ) 36000 = 36000 := by norm_num
    have h0 : min (0 : ℚ) 36000 = 0 := by norm_num
    simp only [fmtPair, h40, h0]
    rw [if_pos (Or.inr (by norm_num))]
    norm_num [fmtHMS, pyInt, pyMod, pad2]
    rfl
  · have ha : min (3599 : ℚ) 36000 = 3599 := by norm_num
    have hb : min (3601 : ℚ) 36000 = 3601 := by norm_num
    simp only [fmtPair, ha, hb]
    rw [if_pos (Or.inr (by norm_num))]
    rw [Prod.mk.injEq]
    constructor <;> (norm_num [fmtHMS, pyInt, pyMod, pad2]; rfl)

/-- Witness for `segment_timestamp_format`: the hypothesis-bearing conjuncts
applied at the boundary segment `{start: 3599, end: 3601}` and at a short
segment. -/
theorem segment_timestamp_format_witness :
    fmtPair 3599 3601 = (fmtHMS (min (3599 : ℚ) 36000), fmtHMS (min (3601 : ℚ) 36000))
    ∧ fmtPair 10 20 = (fmtMS (min (10 : ℚ) 36000), fmtMS (min (20 : ℚ) 36000)) :=
  ⟨segment_timestamp_format.2.1 3599 3601 (Or.inr (by norm_num)),
    segment_timestamp_format.2.2.1 10 20 (by norm_num) (by norm_num)⟩

/-- **C8**: rendering is deterministic and does not modify the transcript it
renders: running the renderer a second time, on the transcript value left by
the first run, produces a byte-identical document, and the post-run transcript
is the input itself. -/
theorem render_deterministic :
    ∀ t : Transcript,
      (save_transcript_to_markdown ((save_transcript_to_markdown t).2)).1
        = (save_transcript_to_markdown t).1
      ∧ (save_transcript_to_markdown t).2 = t :=
  fun _ => ⟨rfl, rfl⟩

/-- **C9**: with script normalization enabled, the traditional-to-simplified
rewrite of the transcript text and of every segment's text is applied iff the
requested language is `"zh"`; any other language's result passes through
unnormalized even though normalization is enabled. -/
theorem normalization_only_for_zh :
    ∀ (conv : String → String) (r : Transcript),
      normalizeResult true conv "zh" r = applyConv conv r
      ∧ ∀ lang : String, lang ≠ "zh" → normalizeResult true conv lang r = r := by
  intro conv r
  refine ⟨by simp [normalizeResult], ?_⟩
  intro lang h
  simp [normalizeResult, h]

/-- Witness for `normalization_only_for_zh`: an enabled-but-English call
returns the recognizer result untouched, a `"zh"` call applies the
converter. -/
theorem normalization_only_for_zh_witness :
    normalizeResult true (fun s => s ++ "!") "en" ⟨"a", [], "en"⟩ = ⟨"a", [], "en"⟩
    ∧ normalizeResult true (fun s => s ++ "!") "zh" ⟨"a", [], "zh"⟩
        = applyConv (fun s => s ++ "!") ⟨"a", [], "zh"⟩ :=
  ⟨(normalization_only_for_zh (fun s => s ++ "!") ⟨"a", [], "en"⟩).2 "en" (by decide),
    (normalization_only_for_zh (fun s => s ++ "!") ⟨"a", [], "zh"⟩).1⟩

/-- **C10**: the rendered metadata duration is the last segment's end clamped
to 36000 s (the renderer receives no true audio duration to show); when the
transcript has no segments, the duration line is omitted while the language
line is still emitted. -/
theorem metadata_duration_line :
    ∀ t : Transcript,
      (t.segments = [] → metadataBlock t = "- 语言: " ++ t.language ++ "\n")
      ∧ (∀ (l : List Segment) (s : Segment), t.segments = l ++ [s] →
          metadataBlock t = "- 语言: " ++ t.language ++ "\n"
            ++ ("- 时长: " ++ durFmt (min s.«end» 36000) ++ "\n")) := by
  intro t
  constructor
  · intro h
    simp [metadataBlock, h]
  · intro l s h
    simp only [metadataBlock, h, List.getLast?_concat]

/-- Witness for `metadata_duration_line`: a transcript with no segments keeps
only the language line; one with a single segment ending at 5 s shows that
clamped end as the duration. -/
theorem metadata_duration_line_witness :
    metadataBlock ⟨"hi", [], "zh"⟩ = "- 语言: " ++ "zh" ++ "\n"
    ∧ metadataBlock ⟨"hi", [⟨0, 5, "x"⟩], "zh"⟩
        = "- 语言: " ++ "zh" ++ "\n" ++ ("- 时长: " ++ durFmt (min (5 : ℚ) 36000) ++ "\n") :=
  ⟨(metadata_duration_line ⟨"hi", [], "zh"⟩).1 rfl,
    (metadata_duration_line ⟨"hi", [⟨0, 5, "x"⟩], "zh"⟩).2 [] ⟨0, 5, "x"⟩ rfl⟩

/-- **C5** counterexample.  Two chunks, both successful, whose segments all
satisfy `start ≤ end` and are in non-decreasing `start` order (the claim's
stated hypotheses), yet the merged `end` values `[10, 2, 3]` are not
non-decreasing: nothing constrains the per-chunk `end` sequence, so segment 1
of chunk 1 may end after segment 2 does. -/
theorem merged_ends_counterexample :
    let t1 : Transcript := ⟨"a", [⟨0, 10, "u"⟩, ⟨1, 2, "v"⟩], "zh"⟩
    let t2 : Transcript := ⟨"b", [⟨0, 1, "w"⟩], "zh"⟩
    (∀ s ∈ t1.segments, s.start ≤ s.«end»)
    ∧ (∀ s ∈ t2.segments, s.start ≤ s.«end»)
    ∧ List.Pairwise (· ≤ ·) (t1.segments.map Segment.start)
    ∧ List.Pairwise (· ≤ ·) (t2.segments.map Segment.start)
    ∧ ¬ List.Chain' (· ≤ ·)
        ((mergeChunks [some t1, some t2] "zh").segments.map Segment.«end») := by
  intro t1 t2
  have hm : (mergeChunks [some t1, some t2] "zh").segments.map Segment.«end»
      = [10, 2, 3] := by
    simp [mergeChunks, mergeStep, offsetSegment, lastEnd, t1, t2]
    norm_num
  refine ⟨?_, ?_, ?_, ?_, ?_⟩
  · intro s hs
    simp [t1] at hs
    rcases hs with rfl | rfl <;> norm_num
  · intro s hs
    simp [t2] at hs
    subst hs
    norm_num
  · simp [t1]
  · simp [t2]
  · rw [hm]
    simp [List.chain'_cons]
    norm_num

/-- **C5** (amended): for a multi-chunk run in which all chunks transcribe
successfully, if each per-chunk transcript is well-formed — every segment has
a nonnegative start and `start ≤ end`, and both the start and the end
sequences are non-decreasing — then the merged segment sequence has
non-decreasing `start` and `end` values across the whole sequence. -/
theorem merged_monotone_of_wellFormed :
    ∀ (ts : List Transcript) (lang : String),
      (∀ t ∈ ts, wellFormed t) →
      List.Chain' (· ≤ ·) ((mergeChunks (ts.map some) lang).segments.map Segment.start)
      ∧ List.Chain' (· ≤ ·) ((mergeChunks (ts.map some) lang).segments.map Segment.«end») := by
  intro ts lang h
  have hinv := foldl_preserves_inv ts ([], 0) h ⟨le_refl 0, by simp, by simp, by simp⟩
  rw [mergeChunks_segments]
  exact ⟨hinv.2.2.1.chain', hinv.2.2.2.chain'⟩

/-- Witness for `merged_monotone_of_wellFormed`: a concrete all-successful
2-chunk run with well-formed chunks. -/
theorem merged_monotone_of_wellFormed_witness :
    List.Chain' (· ≤ ·) ((mergeChunks ([(⟨"a", [⟨0, 1, "u"⟩], "zh"⟩ : Transcript),
        ⟨"b", [⟨0, 2, "w"⟩], "zh"⟩].map some) "zh").segments.map Segment.start)
    ∧ List.Chain' (· ≤ ·) ((mergeChunks ([(⟨"a", [⟨0, 1, "u"⟩], "zh"⟩ : Transcript),
        ⟨"b", [⟨0, 2, "w"⟩], "zh"⟩].map some) "zh").segments.map Segment.«end») :=
  merged_monotone_of_wellFormed [⟨"a", [⟨0, 1, "u"⟩], "zh"⟩, ⟨"b", [⟨0, 2, "w"⟩], "zh"⟩] "zh"
    (by
      intro t ht
      simp only [List.mem_cons, List.not_mem_nil, or_false] at ht
      rcases ht with rfl | rfl <;>
        refine ⟨?_, ?_, ?_⟩ <;> simp [wellFormed])

end PTT
